import Mathlib

/-!
Verification of the parallel table-comparison engine in
`CompareFunction/compare_parallel.py`.

Cells are modelled as `Value` (a missing/NA cell, an integer, a float given by
its decimal rendering, or a string given as a list of characters).  A table row
is a function from column names to cells; a `Table` carries its column list and
its row list.  All functions below are direct shallow embeddings of the Python
source: `normalize`, `auto_tune_settings`, `compare_chunk`,
`process_parallel_blob`, and the cell preprocessing done by `read_blob_to_df`
(`fillna("")` followed by stripping every string cell).
-/

namespace CompareFn

/-- The set of characters treated as whitespace by Python `str.strip()`
(characters `c` with `c.isspace()` true). -/
def pySpaceChars : List Char :=
  [' ', '\t', '\n', '\x0b', '\x0c', '\r',
   '\x1c', '\x1d', '\x1e', '\x1f', '\x85', '\xa0',
   ' ', ' ', ' ', ' ', ' ', ' ', ' ',
   ' ', ' ', ' ', ' ', ' ',
   ' ', ' ', ' ', ' ', '　']

/-- Python `str.isspace` on a single character. -/
def isPySpace (c : Char) : Bool := pySpaceChars.contains c

/-- Python `s.strip()`: remove leading and trailing whitespace characters. -/
def pyStrip (s : List Char) : List Char :=
  ((s.dropWhile isPySpace).reverse.dropWhile isPySpace).reverse

/-- The chained single-character removals
`.replace("\xa0", "").replace("\r", "").replace("\t", "")` from `normalize`. -/
def removeSpecials (s : List Char) : List Char :=
  ((s.filter (fun c => c != '\xa0')).filter (fun c => c != '\r')).filter
    (fun c => c != '\t')

/-- The string pipeline of `normalize`:
`str(val).strip().replace("\xa0", "").replace("\r", "").replace("\t", "")`. -/
def normStr (s : List Char) : List Char := removeSpecials (pyStrip s)

/-- A raw cell value.  `vna` models a missing value (`None` or NaN, the values
with `pd.isna` true); `vint i` models a Python `int`; `vnum s` models a non-NaN
`float` whose `str()` rendering is `s`; `vstr s` models a `str`. -/
inductive Value where
  | vna : Value
  | vint (i : Int) : Value
  | vnum (s : List Char) : Value
  | vstr (s : List Char) : Value
deriving DecidableEq

/-- `str(i)` for a Python `int` (decimal rendering, `-` sign for negatives). -/
def intStr (i : Int) : List Char := (toString i).data

/-- Does the rendering end in `".0"` (the `str(val).endswith(".0")` test)? -/
def endsDotZero (s : List Char) : Bool :=
  decide (2 ≤ s.length) && (s.drop (s.length - 2) == ['.', '0'])

/-- Drop a trailing `".0"`.  For a float `f` with `str(f)` ending in `".0"`,
`str(int(f))` is exactly `str(f)` without that suffix. -/
def dropDotZero (s : List Char) : List Char := s.take (s.length - 2)

/-- The inner `normalize` function of `compare_chunk`.
For an `int` value, `int(val) = val`, so both arms of
`str(int(val)) if str(val).endswith(".0") else str(val)` give `str(val)`
(an integer rendering never ends in `".0"`). -/
def normalize : Value → List Char
  | .vna => []
  | .vint i => normStr (intStr i)
  | .vnum s => normStr (if endsDotZero s then dropDotZero s else s)
  | .vstr s => normStr s

/-- A row: a mapping from column names to cell values. -/
def Row : Type := String → Value

/-- A table: an ordered column list and an ordered row list, all rows sharing
the column set. -/
structure Table where
  cols : List String
  rows : List Row

/-- `fillna("")`: a missing cell becomes the empty string. -/
def fillNaEmpty (v : Value) : Value :=
  match v with
  | .vna => .vstr []
  | w => w

/-- `applymap(lambda v: v.strip() if isinstance(v, str) else v)`. -/
def stripIfStr (v : Value) : Value :=
  match v with
  | .vstr s => .vstr (pyStrip s)
  | w => w

/-- The per-cell preprocessing of `read_blob_to_df`:
`df.fillna("")` followed by stripping every string cell. -/
def loadCell (v : Value) : Value := stripIfStr (fillNaEmpty v)

/-- `read_blob_to_df` preprocessing applied to one row. -/
def loadRow (r : Row) : Row := fun c => loadCell (r c)

/-- `read_blob_to_df` preprocessing applied to a whole table. -/
def loadTable (t : Table) : Table := ⟨t.cols, t.rows.map loadRow⟩

/-- `auto_tune_settings(total_records)`, with the resource probes made
explicit: `cpuCountPhys` models `psutil.cpu_count(logical=False)` (`none` when
the probe fails; `cpu_count or 1` maps falsy results to `1`) and `memGb`
models `psutil.virtual_memory().available / 1024**3`. -/
def auto_tune_settings (totalRecords : Nat) (cpuCountPhys : Option Nat)
    (memGb : ℚ) : Nat × Nat :=
  let cpuCount : Nat :=
    match cpuCountPhys with
    | none => 1
    | some 0 => 1
    | some n => n
  let p : Nat × Nat :=
    if totalRecords ≤ 100000 then (20000, min 6 cpuCount)
    else if totalRecords ≤ 1000000 then (30000, min 8 (cpuCount * 2))
    else (50000, min 16 (cpuCount * 2))
  if memGb < 4 then (max 5000 (p.1 / 2), max 2 (p.2 / 2)) else p

/-- The TuningAdvisor policy transcribed from the specification threshold
table, for comparison with `auto_tune_settings`:
rows ≤ 100,000 gives (20,000, min 6 cores); rows ≤ 1,000,000 gives
(30,000, min 8 (cores×2)); more gives (50,000, min 16 (cores×2)); and with
available memory below 4 GB the chunk size is halved with floor 5,000 and the
worker count halved with floor 2. -/
def adviseSpec (totalRows cores : Nat) (memGb : ℚ) : Nat × Nat :=
  let p : Nat × Nat :=
    if totalRows ≤ 100000 then (20000, min 6 cores)
    else if totalRows ≤ 1000000 then (30000, min 8 (cores * 2))
    else (50000, min 16 (cores * 2))
  if memGb < 4 then (max 5000 (p.1 / 2), max 2 (p.2 / 2)) else p

/-- `math.ceil(total / chunk_size)` for a positive `chunk_size`. -/
def numChunks (total cs : Nat) : Nat := (total + cs - 1) / cs

/-- Chunk `i` of the source rows:
`start, end = i*cs, min((i+1)*cs, total)` followed by `iloc[start:end]`. -/
def srcSlice (rows : List α) (cs i : Nat) : List α :=
  (rows.drop (i * cs)).take (min ((i + 1) * cs) rows.length - i * cs)

/-- The ordered list of chunks produced by the `for i in range(chunks)` loop. -/
def runChunks (rows : List α) (cs : Nat) : List (List α) :=
  (List.range (numChunks rows.length cs)).map (fun i => srcSlice rows cs i)

/-- One reported difference, as appended to the `diffs` list:
either `{"PK": pk, "Status": "MISSING_IN_TARGET"}` or
`{"PK": pk, "Status": "MISMATCH", "Diff": ...}` whose `Diff` payload is the
mapping from disagreeing column to the normalized source and target values. -/
inductive DiffRecord where
  | missingInTarget (pk : List Char) : DiffRecord
  | mismatch (pk : List Char)
      (fieldDiffs : List (String × List Char × List Char)) : DiffRecord
deriving DecidableEq

/-- The dictionary returned by one `compare_chunk` call. -/
structure ChunkResult where
  diffs : List DiffRecord
  matched : Nat
  missing : Nat
  mismatched : Nat
  checked : Nat
deriving DecidableEq

/-- Python `dict.get(k, d)` on an association list whose most recent insertion
comes first. -/
def pyGet (m : List (String × List Char)) (k : String) (d : List Char) :
    List Char :=
  match m.lookup k with
  | some v => v
  | none => d

/-- The normalized target row `{col: normalize(row[col]) for col in columns}`,
built with the most recent binding first so that `List.lookup` returns the
last-written binding, as a Python dict does. -/
def mkNormRow (cols : List String) (row : Row) : List (String × List Char) :=
  cols.foldl (fun m c => (c, normalize (row c)) :: m) []

/-- The `tgt_map` dictionary built by `compare_chunk`: keys are normalized
primary-key values, values are fully normalized target rows, with later target
rows overwriting earlier ones (most recent insertion first, found first). -/
def buildTgtMap (tgtCols : List String) (pkCol : String) (tgtRows : List Row) :
    List (List Char × List (String × List Char)) :=
  tgtRows.foldl (fun m t => (normalize (t pkCol), mkNormRow tgtCols t) :: m) []

/-- The `mismatch` dictionary collected for one source row: every non-key
source column whose normalized source value differs from
`tgt_row.get(col, "")`. -/
def rowDiffs (srcCols : List String) (pkCol : String) (srcRow : Row)
    (tgtRow : List (String × List Char)) :
    List (String × List Char × List Char) :=
  srcCols.filterMap (fun c =>
    if c = pkCol then none
    else if normalize (srcRow c) ≠ pyGet tgtRow c [] then
      some (c, normalize (srcRow c), pyGet tgtRow c [])
    else none)

/-- The outcome of the `compare_chunk` loop body for one source row. -/
inductive RowOutcome where
  | missingO (pk : List Char) : RowOutcome
  | mismatchO (pk : List Char)
      (fieldDiffs : List (String × List Char × List Char)) : RowOutcome
  | matchedO : RowOutcome
deriving DecidableEq

/-- The decision taken by the `compare_chunk` loop body for one source row:
look up the normalized primary key in `tgt_map`; report missing on no hit,
otherwise collect the column differences and report mismatch or match. -/
def classifyRow (srcCols : List String) (pkCol : String)
    (tgtMap : List (List Char × List (String × List Char))) (srcRow : Row) :
    RowOutcome :=
  let pkVal := normalize (srcRow pkCol)
  match tgtMap.lookup pkVal with
  | none => .missingO pkVal
  | some tgtRow =>
    let m := rowDiffs srcCols pkCol srcRow tgtRow
    if m = [] then .matchedO else .mismatchO pkVal m

/-- The counter and diff-list updates of the `compare_chunk` loop body
(`checked` always increments; exactly one of the three outcome counters
increments; missing and mismatched append one diff record). -/
def applyOutcome (acc : ChunkResult) (o : RowOutcome) : ChunkResult :=
  match o with
  | .missingO pk =>
    { acc with checked := acc.checked + 1, missing := acc.missing + 1,
               diffs := acc.diffs ++ [.missingInTarget pk] }
  | .mismatchO pk m =>
    { acc with checked := acc.checked + 1, mismatched := acc.mismatched + 1,
               diffs := acc.diffs ++ [.mismatch pk m] }
  | .matchedO =>
    { acc with checked := acc.checked + 1, matched := acc.matched + 1 }

/-- `compare_chunk(src_chunk, tgt_chunk, pk_col)`. -/
def compare_chunk (srcCols : List String) (srcRows : List Row)
    (tgtCols : List String) (tgtRows : List Row) (pkCol : String) :
    ChunkResult :=
  let tgtMap := buildTgtMap tgtCols pkCol tgtRows
  srcRows.foldl (fun acc r => applyOutcome acc (classifyRow srcCols pkCol tgtMap r))
    ⟨[], 0, 0, 0, 0⟩

/-- The per-chunk target subset
`tgt_df[tgt_df[pk_col].isin(src_chunk[pk_col])]`: target rows whose raw
primary-key value equals the raw primary-key value of some chunk row. -/
def tgtSubset (tgt : Table) (pkCol : String) (chunkRows : List Row) :
    List Row :=
  tgt.rows.filter (fun t => chunkRows.any (fun s => t pkCol == s pkCol))

/-- The list of chunk results of one run, in chunk submission order. -/
def chunkResults (src tgt : Table) (pkCol : String) (chunkSize : Nat) :
    List ChunkResult :=
  (runChunks src.rows chunkSize).map (fun c =>
    compare_chunk src.cols c tgt.cols (tgtSubset tgt pkCol c) pkCol)

/-- The aggregation loop over completed chunk results: extend `all_diffs` and
sum the four counters. -/
def aggregate (results : List ChunkResult) : ChunkResult :=
  results.foldl (fun acc r =>
    ⟨acc.diffs ++ r.diffs, acc.matched + r.matched, acc.missing + r.missing,
     acc.mismatched + r.mismatched, acc.checked + r.checked⟩)
    ⟨[], 0, 0, 0, 0⟩

/-- The error message of the `raise KeyError(...)` in
`process_parallel_blob`. -/
def keyErrMsg (pkCol : String) : String :=
  "Primary key \x27" ++ pkCol ++ "\x27 not found in one of the files"

/-- The outcome of one full run (the data that outlives
`process_parallel_blob`): both input sizes, the aggregated diff list and the
four aggregated counters. -/
structure RunResult where
  totalSource : Nat
  totalTarget : Nat
  diffs : List DiffRecord
  matched : Nat
  missing : Nat
  mismatched : Nat
  checked : Nat
deriving DecidableEq

/-- `process_parallel_blob(source_blob, target_blob, pk_col)`: load both
tables (`read_blob_to_df` preprocessing), validate the primary-key column,
auto-tune the chunk size, compare all chunks and aggregate.  The chunk results
are aggregated here in submission order; `process_parallel_ordered` below
models the `as_completed` collection order explicitly. -/
def process_parallel_blob (srcRaw tgtRaw : Table) (pkCol : String)
    (cpuCountPhys : Option Nat) (memGb : ℚ) : Except String RunResult :=
  if pkCol ∉ (loadTable srcRaw).cols ∨ pkCol ∉ (loadTable tgtRaw).cols then
    .error (keyErrMsg pkCol)
  else
    let src := loadTable srcRaw
    let tgt := loadTable tgtRaw
    let chunkSize := (auto_tune_settings src.rows.length cpuCountPhys memGb).1
    let a := aggregate (chunkResults src tgt pkCol chunkSize)
    .ok ⟨src.rows.length, tgt.rows.length, a.diffs, a.matched, a.missing,
         a.mismatched, a.checked⟩

/-- The same run with the `as_completed` collection order made explicit:
`order` lists the positions of the chunk results in the order the worker pool
delivers them.  The pool size (`thread_count`) influences only which `order`
materializes, never the individual chunk results. -/
def process_parallel_ordered (srcRaw tgtRaw : Table) (pkCol : String)
    (cpuCountPhys : Option Nat) (memGb : ℚ) (order : List Nat) :
    Except String RunResult :=
  if pkCol ∉ (loadTable srcRaw).cols ∨ pkCol ∉ (loadTable tgtRaw).cols then
    .error (keyErrMsg pkCol)
  else
    let src := loadTable srcRaw
    let tgt := loadTable tgtRaw
    let chunkSize := (auto_tune_settings src.rows.length cpuCountPhys memGb).1
    let results := chunkResults src tgt pkCol chunkSize
    let a := aggregate (order.filterMap (fun i => results.get? i))
    .ok ⟨src.rows.length, tgt.rows.length, a.diffs, a.matched, a.missing,
         a.mismatched, a.checked⟩

/-- The four aggregated counters of a run. -/
def countsQuad (r : RunResult) : Nat × Nat × Nat × Nat :=
  (r.matched, r.missing, r.mismatched, r.checked)

/-! ### Concrete tables used to evaluate the development on closed inputs -/

/-- A row over columns `pk` and `a` with the given string cells. -/
def rowPkA (p a : List Char) : Row := fun c =>
  if c = "pk" then .vstr p else if c = "a" then .vstr a else .vna

/-- Two rows sharing the raw primary-key value `"1"` but disagreeing on
column `a`. -/
def exDupT : Table := ⟨["pk", "a"], [rowPkA ['1'] ['X'], rowPkA ['1'] ['Y']]⟩

/-- Two rows with distinct primary-key values. -/
def exOkT : Table := ⟨["pk", "a"], [rowPkA ['1'] ['X'], rowPkA ['2'] ['Y']]⟩

/-- One row whose primary key carries an embedded non-breaking space. -/
def exNbspSrc : Table := ⟨["pk", "a"], [rowPkA ['a', '\xa0', 'b'] ['X']]⟩

/-- One row whose primary key is the same as `exNbspSrc` up to
normalization, with an identical `a` cell. -/
def exNbspTgt : Table := ⟨["pk", "a"], [rowPkA ['a', 'b'] ['X']]⟩

/-- A single-row table. -/
def exSimple : Table := ⟨["pk", "a"], [rowPkA ['1'] ['X']]⟩

/-- A table without the `pk` column. -/
def exNoPk : Table := ⟨["b"], []⟩

/-- A table whose single row has a primary-key cell with a leading space. -/
def exSpacedT : Table := ⟨["pk", "a"], [rowPkA [' ', '1'] ['X']]⟩

/-- The result of comparing `exSimple` against itself. -/
def exSimpleRun : RunResult := ⟨1, 1, [], 1, 0, 0, 1⟩

/-- The result of comparing `exDupT` against itself: the first duplicate-key
row is shadowed in `tgt_map` by the second and reports a mismatch. -/
def exDupRun : RunResult :=
  ⟨2, 2, [.mismatch ['1'] [("a", ['X'], ['Y'])]], 1, 0, 1, 2⟩

/-- The result of comparing `exNbspSrc` against `exNbspTgt`: the raw-value
target pre-filter drops the target row, so the source row reports missing
although every cell agrees after normalization. -/
def exNbspRun : RunResult := ⟨1, 1, [.missingInTarget ['a', 'b']], 0, 1, 0, 1⟩

/-! ### Helper lemmas: normalization -/

/-- The characters kept by the three chained `replace` calls. -/
def keepChar (c : Char) : Bool :=
  !(c == '\xa0') && !(c == '\r') && !(c == '\t')

theorem removeSpecials_eq_filter (s : List Char) :
    removeSpecials s = s.filter keepChar := by
  unfold removeSpecials keepChar
  rw [List.filter_filter, List.filter_filter]
  apply List.filter_congr
  intro c _
  cases hn : c == '\xa0' <;> cases hr : c == '\r' <;> cases ht : c == '\t' <;>
    simp [bne, hn, hr, ht]

theorem isPySpace_of_not_keepChar {c : Char} (h : keepChar c = false) :
    isPySpace c = true := by
  have : c = '\xa0' ∨ c = '\r' ∨ c = '\t' := by
    simp only [keepChar, Bool.and_eq_false_iff, Bool.not_eq_false',
      beq_iff_eq] at h
    tauto
  rcases this with h | h | h <;> subst h <;> decide

theorem dropWhile_head_false {p : Char → Bool} {l : List Char} :
    ∀ {c : Char}, (l.dropWhile p).head? = some c → p c = false := by
  induction l with
  | nil => intro c h; simp at h
  | cons a t ih =>
    intro c h
    rw [List.dropWhile_cons] at h
    by_cases hp : p a = true
    · rw [if_pos hp] at h
      exact ih h
    · rw [if_neg hp] at h
      have hac : a = c := by simpa using h
      subst hac
      cases hpc : p a
      · rfl
      · exact absurd hpc hp

theorem dropWhile_eq_self_of_head {p : Char → Bool} {l : List Char}
    (h : ∀ c, l.head? = some c → p c = false) : l.dropWhile p = l := by
  cases l with
  | nil => rfl
  | cons a t =>
    rw [List.dropWhile_cons, if_neg]
    simp [h a rfl]

/-- A list with a non-space head and a non-space last element is unchanged by
`pyStrip`. -/
theorem pyStrip_eq_self {l : List Char}
    (h1 : ∀ c, l.head? = some c → isPySpace c = false)
    (h2 : ∀ c, l.getLast? = some c → isPySpace c = false) :
    pyStrip l = l := by
  unfold pyStrip
  rw [dropWhile_eq_self_of_head h1]
  rw [dropWhile_eq_self_of_head (by
    intro c hc
    rw [List.head?_reverse] at hc
    exact h2 c hc)]
  exact List.reverse_reverse l

theorem pyStrip_head {s : List Char} {c : Char}
    (h : (pyStrip s).head? = some c) : isPySpace c = false := by
  unfold pyStrip at h
  rw [List.head?_reverse] at h
  rcases @List.dropWhile_suffix _ ((s.dropWhile isPySpace).reverse)
      isPySpace with ⟨pre, hpre⟩
  have hu : ((s.dropWhile isPySpace).reverse).getLast? = some c := by
    rw [← hpre, List.getLast?_append, h]
    rfl
  rw [List.getLast?_reverse] at hu
  exact dropWhile_head_false hu

theorem pyStrip_last {s : List Char} {c : Char}
    (h : (pyStrip s).getLast? = some c) : isPySpace c = false := by
  unfold pyStrip at h
  rw [List.getLast?_reverse] at h
  exact dropWhile_head_false h

theorem pyStrip_idem (s : List Char) : pyStrip (pyStrip s) = pyStrip s :=
  pyStrip_eq_self (fun _ h => pyStrip_head h) (fun _ h => pyStrip_last h)

theorem filter_keep_head {l : List Char} {c : Char}
    (h : ∀ d, l.head? = some d → isPySpace d = false)
    (hc : (l.filter keepChar).head? = some c) : isPySpace c = false := by
  induction l with
  | nil => simp at hc
  | cons a t _ =>
    have ha : isPySpace a = false := h a rfl
    have hk : keepChar a = true := by
      cases hak : keepChar a
      · rw [isPySpace_of_not_keepChar hak] at ha
        exact absurd ha (by simp)
      · rfl
    rw [List.filter_cons_of_pos hk] at hc
    simp only [List.head?_cons, Option.some.injEq] at hc
    subst hc
    exact ha

theorem filter_keep_last {l : List Char} {c : Char}
    (h : ∀ d, l.getLast? = some d → isPySpace d = false)
    (hc : (l.filter keepChar).getLast? = some c) : isPySpace c = false := by
  rw [← List.head?_reverse, ← List.filter_reverse] at hc
  exact filter_keep_head (fun d hd => h d (by rwa [List.head?_reverse] at hd)) hc

theorem normStr_head {s : List Char} {c : Char}
    (h : (normStr s).head? = some c) : isPySpace c = false := by
  rw [normStr, removeSpecials_eq_filter] at h
  exact filter_keep_head (fun d hd => pyStrip_head hd) h

theorem normStr_last {s : List Char} {c : Char}
    (h : (normStr s).getLast? = some c) : isPySpace c = false := by
  rw [normStr, removeSpecials_eq_filter] at h
  exact filter_keep_last (fun d hd => pyStrip_last hd) h

theorem removeSpecials_normStr (s : List Char) :
    removeSpecials (normStr s) = normStr s := by
  rw [removeSpecials_eq_filter]
  rw [List.filter_eq_self]
  intro a ha
  rw [normStr, removeSpecials_eq_filter] at ha
  exact (List.mem_filter.mp ha).2

/-- Core idempotence of the string pipeline of `normalize`. -/
theorem normStr_idem (s : List Char) : normStr (normStr s) = normStr s := by
  conv_lhs => rw [normStr]
  rw [pyStrip_eq_self (fun c h => normStr_head h) (fun c h => normStr_last h)]
  exact removeSpecials_normStr s

theorem normStr_pyStrip (s : List Char) : normStr (pyStrip s) = normStr s := by
  rw [normStr, normStr, pyStrip_idem]

/-- Load-time preprocessing does not change normalized values. -/
theorem normalize_loadCell (v : Value) :
    normalize (loadCell v) = normalize v := by
  cases v with
  | vna => rfl
  | vint i => rfl
  | vnum s => rfl
  | vstr s => exact normStr_pyStrip s

/-! ### Helper lemmas: tuning and chunk partitioning -/

theorem auto_tune_chunkSize_pos (t : Nat) (c : Option Nat) (m : ℚ) :
    1 ≤ (auto_tune_settings t c m).1 := by
  unfold auto_tune_settings
  dsimp only
  by_cases hm : m < 4
  · rw [if_pos hm]
    exact le_trans (by norm_num) (le_max_left 5000 _)
  · rw [if_neg hm]
    by_cases h1 : t ≤ 100000
    · rw [if_pos h1]
      norm_num
    · rw [if_neg h1]
      by_cases h2 : t ≤ 1000000
      · rw [if_pos h2]
        norm_num
      · rw [if_neg h2]
        norm_num

theorem numChunks_nil {cs : Nat} (hcs : 1 ≤ cs) : numChunks 0 cs = 0 := by
  unfold numChunks
  exact Nat.div_eq_of_lt (by omega)

theorem numChunks_step {total cs : Nat} (ht : 1 ≤ total) (hcs : 1 ≤ cs) :
    numChunks total cs = numChunks (total - cs) cs + 1 := by
  unfold numChunks
  have h1 : total + cs - 1 = (total - 1) + cs := by omega
  rw [h1, Nat.add_div_right _ (by omega)]
  rcases le_or_lt total cs with h | h
  · have h2 : total - cs = 0 := by omega
    rw [h2]
    rw [Nat.div_eq_of_lt (by omega), Nat.div_eq_of_lt (by omega)]
  · have h3 : total - cs + cs - 1 = total - 1 := by omega
    rw [h3]

theorem srcSlice_zero (rows : List α) (cs : Nat) :
    srcSlice rows cs 0 = rows.take cs := by
  unfold srcSlice
  simp only [Nat.zero_mul, List.drop_zero, Nat.sub_zero, Nat.zero_add,
    Nat.one_mul]
  rw [List.take_eq_take]
  omega

theorem srcSlice_succ (rows : List α) (cs i : Nat) :
    srcSlice rows cs (i + 1) = srcSlice (rows.drop cs) cs i := by
  unfold srcSlice
  rw [List.drop_drop, List.length_drop]
  have e1 : (i + 1) * cs = cs + i * cs := by ring
  have e2 : (i + 1 + 1) * cs = i * cs + cs + cs := by ring
  rw [e1, e2]
  congr 1
  omega

theorem runChunks_nil {cs : Nat} (hcs : 1 ≤ cs) :
    runChunks ([] : List α) cs = [] := by
  unfold runChunks
  simp [numChunks_nil hcs]

theorem runChunks_cons {rows : List α} {cs : Nat} (hne : rows ≠ [])
    (hcs : 1 ≤ cs) :
    runChunks rows cs = rows.take cs :: runChunks (rows.drop cs) cs := by
  unfold runChunks
  have ht : 1 ≤ rows.length := List.length_pos.mpr hne
  rw [numChunks_step ht hcs, List.range_succ_eq_map, List.map_cons,
    List.map_map]
  rw [srcSlice_zero]
  congr 1
  rw [List.length_drop]
  apply List.map_congr_left
  intro i _
  show srcSlice rows cs (i + 1) = srcSlice (rows.drop cs) cs i
  exact srcSlice_succ rows cs i

theorem runChunks_flatten {cs : Nat} (hcs : 1 ≤ cs) :
    ∀ (rows : List α), (runChunks rows cs).flatten = rows := by
  have key : ∀ (n : Nat) (rows : List α), rows.length ≤ n →
      (runChunks rows cs).flatten = rows := by
    intro n
    induction n with
    | zero =>
      intro rows hn
      have : rows = [] := List.length_eq_zero.mp (Nat.le_zero.mp hn)
      subst this
      rw [runChunks_nil hcs]
      rfl
    | succ n ih =>
      intro rows hn
      by_cases hne : rows = []
      · subst hne
        rw [runChunks_nil hcs]
        rfl
      · rw [runChunks_cons hne hcs, List.flatten_cons,
          ih (rows.drop cs) (by rw [List.length_drop]; omega)]
        exact List.take_append_drop cs rows
  intro rows
  exact key rows.length rows le_rfl

theorem runChunks_chunk_length_le {cs : Nat} {rows : List α} {C : List α}
    (hC : C ∈ runChunks rows cs) : C.length ≤ cs := by
  unfold runChunks at hC
  rcases List.mem_map.mp hC with ⟨i, _, hi⟩
  subst hi
  unfold srcSlice
  rw [List.length_take]
  have e3 : (i + 1) * cs = i * cs + cs := by ring
  rw [e3]
  omega

theorem mem_of_mem_runChunks {cs : Nat} {rows : List α} {C : List α}
    (hC : C ∈ runChunks rows cs) : ∀ r ∈ C, r ∈ rows := by
  unfold runChunks at hC
  rcases List.mem_map.mp hC with ⟨i, _, hi⟩
  subst hi
  intro r hr
  unfold srcSlice at hr
  exact List.drop_subset _ _ (List.take_subset _ _ hr)

/-! ### Helper lemmas: dictionaries built by prepending -/

theorem foldl_prepend_eq {α β : Type} (f : α → β) (l : List α) :
    ∀ acc : List β,
      l.foldl (fun m x => f x :: m) acc = (l.map f).reverse ++ acc := by
  induction l with
  | nil => intro acc; rfl
  | cons a t ih =>
    intro acc
    rw [List.foldl_cons, ih (f a :: acc), List.map_cons, List.reverse_cons,
      List.append_assoc]
    rfl

theorem mkNormRow_eq (cols : List String) (row : Row) :
    mkNormRow cols row = (cols.map (fun c => (c, normalize (row c)))).reverse := by
  unfold mkNormRow
  rw [foldl_prepend_eq, List.append_nil]

theorem buildTgtMap_eq (tgtCols : List String) (pkCol : String)
    (tgtRows : List Row) :
    buildTgtMap tgtCols pkCol tgtRows =
      (tgtRows.map (fun t => (normalize (t pkCol), mkNormRow tgtCols t))).reverse := by
  unfold buildTgtMap
  rw [foldl_prepend_eq, List.append_nil]

theorem lookup_isSome_of_key {α β : Type} [BEq α] [LawfulBEq α]
    {l : List (α × β)} {k : α} (h : ∃ p ∈ l, p.1 = k) :
    ∃ v, l.lookup k = some v := by
  induction l with
  | nil => simp at h
  | cons a t ih =>
    rcases a with ⟨ka, va⟩
    by_cases hk : k = ka
    · subst hk
      exact ⟨va, by simp [List.lookup_cons]⟩
    · rw [List.lookup_cons]
      have : (k == ka) = false := beq_false_of_ne hk
      rw [this]
      apply ih
      rcases h with ⟨p, hp, hpk⟩
      rcases List.mem_cons.mp hp with h1 | h1
      · subst h1
        exact absurd hpk.symm hk
      · exact ⟨p, h1, hpk⟩

theorem mem_of_lookup_eq_some {α β : Type} [BEq α] [LawfulBEq α]
    {l : List (α × β)} {k : α} {v : β} (h : l.lookup k = some v) :
    (k, v) ∈ l := by
  induction l with
  | nil => simp [List.lookup] at h
  | cons a t ih =>
    rcases a with ⟨ka, va⟩
    rw [List.lookup_cons] at h
    cases hk : k == ka
    · rw [hk] at h
      exact List.mem_cons_of_mem _ (ih h)
    · rw [hk] at h
      have hkk : k = ka := eq_of_beq hk
      have hv : va = v := by simpa using h
      subst hkk
      subst hv
      exact List.mem_cons_self _ _

theorem lookup_value_determined {α β : Type} [BEq α] [LawfulBEq α]
    {l : List (α × β)} {k : α} {v w : β}
    (hval : ∀ p ∈ l, p.1 = k → p.2 = v) (h : l.lookup k = some w) : w = v :=
  hval (k, w) (mem_of_lookup_eq_some h) rfl

/-- `tgt_row.get(col, "")` on the normalized target row returns the normalized
target cell for a target column and the default for any other column. -/
theorem pyGet_mkNormRow_of_mem {cols : List String} {row : Row} {c : String}
    (hc : c ∈ cols) (d : List Char) :
    pyGet (mkNormRow cols row) c d = normalize (row c) := by
  unfold pyGet
  have hex : ∃ p ∈ mkNormRow cols row, p.1 = c := by
    refine ⟨(c, normalize (row c)), ?_, rfl⟩
    rw [mkNormRow_eq, List.mem_reverse, List.mem_map]
    exact ⟨c, hc, rfl⟩
  rcases lookup_isSome_of_key hex with ⟨v, hv⟩
  rw [hv]
  have hval : ∀ p ∈ mkNormRow cols row, p.1 = c → p.2 = normalize (row c) := by
    intro p hp hpk
    rw [mkNormRow_eq, List.mem_reverse, List.mem_map] at hp
    rcases hp with ⟨c0, _, hc0⟩
    subst hc0
    simp only at hpk
    subst hpk
    rfl
  rw [lookup_value_determined hval hv]

theorem pyGet_mkNormRow_of_not_mem {cols : List String} {row : Row}
    {c : String} (hc : c ∉ cols) (d : List Char) :
    pyGet (mkNormRow cols row) c d = d := by
  unfold pyGet
  have : (mkNormRow cols row).lookup c = none := by
    induction cols with
    | nil => rfl
    | cons a t ih =>
      rw [mkNormRow_eq] at *
      simp only [List.map_cons, List.reverse_cons] at *
      have hca : c ≠ a := fun h => hc (h ▸ List.mem_cons_self a t)
      have hct : c ∉ t := fun h => hc (List.mem_cons_of_mem a h)
      rw [List.lookup_append]
      rw [ih hct]
      simp [List.lookup_cons, beq_false_of_ne hca]
  rw [this]

/-- Looking up a key that some target row carries succeeds, and whatever row
wins the dictionary slot is a subset row carrying that key. -/
theorem buildTgtMap_lookup_some (tgtCols : List String) {pkCol : String}
    {tgtRows : List Row} {k : List Char}
    (h : ∃ t ∈ tgtRows, normalize (t pkCol) = k) :
    ∃ u ∈ tgtRows, normalize (u pkCol) = k ∧
      (buildTgtMap tgtCols pkCol tgtRows).lookup k = some (mkNormRow tgtCols u) := by
  have hex : ∃ p ∈ buildTgtMap tgtCols pkCol tgtRows, p.1 = k := by
    rcases h with ⟨t, ht, hk⟩
    refine ⟨(normalize (t pkCol), mkNormRow tgtCols t), ?_, hk⟩
    rw [buildTgtMap_eq, List.mem_reverse, List.mem_map]
    exact ⟨t, ht, rfl⟩
  rcases lookup_isSome_of_key hex with ⟨v, hv⟩
  have hmem := mem_of_lookup_eq_some hv
  rw [buildTgtMap_eq, List.mem_reverse, List.mem_map] at hmem
  rcases hmem with ⟨u, hu, huv⟩
  have hk : normalize (u pkCol) = k := congrArg Prod.fst huv
  have hval : v = mkNormRow tgtCols u := (congrArg Prod.snd huv).symm
  exact ⟨u, hu, hk, by rw [hv, hval]⟩

theorem buildTgtMap_lookup_none {tgtCols : List String} {pkCol : String}
    {tgtRows : List Row} {k : List Char}
    (h : ∀ t ∈ tgtRows, normalize (t pkCol) ≠ k) :
    (buildTgtMap tgtCols pkCol tgtRows).lookup k = none := by
  cases hl : (buildTgtMap tgtCols pkCol tgtRows).lookup k
  · rfl
  · have hmem := mem_of_lookup_eq_some hl
    rw [buildTgtMap_eq, List.mem_reverse, List.mem_map] at hmem
    rcases hmem with ⟨u, hu, huv⟩
    exact absurd (congrArg Prod.fst huv) (h u hu)

/-! ### Helper lemmas: chunk comparison and aggregation -/

theorem foldl_preserves {β γ : Type} {P : β → Prop} {f : β → γ → β}
    (hstep : ∀ a b, P a → P (f a b)) :
    ∀ (l : List γ) (acc : β), P acc → P (l.foldl f acc) := by
  intro l
  induction l with
  | nil => intro acc h; exact h
  | cons a t ih => intro acc h; exact ih (f acc a) (hstep acc a h)

theorem applyOutcome_checked_eq (acc : ChunkResult) (o : RowOutcome)
    (h : acc.checked = acc.matched + acc.missing + acc.mismatched) :
    (applyOutcome acc o).checked =
      (applyOutcome acc o).matched + (applyOutcome acc o).missing +
        (applyOutcome acc o).mismatched := by
  cases o <;> simp [applyOutcome] <;> omega

theorem applyOutcome_diffs_len (acc : ChunkResult) (o : RowOutcome)
    (h : acc.diffs.length = acc.missing + acc.mismatched) :
    (applyOutcome acc o).diffs.length =
      (applyOutcome acc o).missing + (applyOutcome acc o).mismatched := by
  cases o <;> simp [applyOutcome] <;> omega

/-- Per-chunk counter identity: every source row lands in exactly one of the
three outcome counters. -/
theorem compare_chunk_checked_eq (srcCols : List String) (srcRows : List Row)
    (tgtCols : List String) (tgtRows : List Row) (pkCol : String) :
    (compare_chunk srcCols srcRows tgtCols tgtRows pkCol).checked =
      (compare_chunk srcCols srcRows tgtCols tgtRows pkCol).matched +
      (compare_chunk srcCols srcRows tgtCols tgtRows pkCol).missing +
      (compare_chunk srcCols srcRows tgtCols tgtRows pkCol).mismatched := by
  unfold compare_chunk
  exact foldl_preserves (fun a b h => applyOutcome_checked_eq a _ h) srcRows
    ⟨[], 0, 0, 0, 0⟩ rfl

/-- Per-chunk diff-list identity: one diff record per missing or mismatched
row. -/
theorem compare_chunk_diffs_len (srcCols : List String) (srcRows : List Row)
    (tgtCols : List String) (tgtRows : List Row) (pkCol : String) :
    (compare_chunk srcCols srcRows tgtCols tgtRows pkCol).diffs.length =
      (compare_chunk srcCols srcRows tgtCols tgtRows pkCol).missing +
      (compare_chunk srcCols srcRows tgtCols tgtRows pkCol).mismatched := by
  unfold compare_chunk
  exact foldl_preserves (fun a b h => applyOutcome_diffs_len a _ h) srcRows
    ⟨[], 0, 0, 0, 0⟩ rfl

theorem foldl_all_matched {srcCols : List String} {pkCol : String}
    {tgtMap : List (List Char × List (String × List Char))} :
    ∀ (srcRows : List Row) (acc : ChunkResult),
      (∀ r ∈ srcRows, classifyRow srcCols pkCol tgtMap r = .matchedO) →
      srcRows.foldl
          (fun a r => applyOutcome a (classifyRow srcCols pkCol tgtMap r)) acc =
        { acc with matched := acc.matched + srcRows.length,
                   checked := acc.checked + srcRows.length } := by
  intro srcRows
  induction srcRows with
  | nil => intro acc _; simp
  | cons a t ih =>
    intro acc h
    rw [List.foldl_cons, h a (List.mem_cons_self a t),
      ih _ (fun r hr => h r (List.mem_cons_of_mem a hr))]
    simp [applyOutcome]
    omega

/-- A chunk whose every row classifies as matched contributes only matched
counts. -/
theorem compare_chunk_all_matched {srcCols : List String} {pkCol : String}
    {srcRows : List Row} {tgtCols : List String} {tgtRows : List Row}
    (h : ∀ r ∈ srcRows,
      classifyRow srcCols pkCol (buildTgtMap tgtCols pkCol tgtRows) r =
        .matchedO) :
    compare_chunk srcCols srcRows tgtCols tgtRows pkCol =
      ⟨[], srcRows.length, 0, 0, srcRows.length⟩ := by
  unfold compare_chunk
  rw [foldl_all_matched srcRows ⟨[], 0, 0, 0, 0⟩ h]
  simp

theorem aggregate_eq (results : List ChunkResult) :
    aggregate results =
      ⟨(results.map (fun r => r.diffs)).flatten,
       (results.map (fun r => r.matched)).sum,
       (results.map (fun r => r.missing)).sum,
       (results.map (fun r => r.mismatched)).sum,
       (results.map (fun r => r.checked)).sum⟩ := by
  unfold aggregate
  have key : ∀ (l : List ChunkResult) (acc : ChunkResult),
      l.foldl (fun acc r =>
        ⟨acc.diffs ++ r.diffs, acc.matched + r.matched, acc.missing + r.missing,
         acc.mismatched + r.mismatched, acc.checked + r.checked⟩) acc =
      ⟨acc.diffs ++ (l.map (fun r => r.diffs)).flatten,
       acc.matched + (l.map (fun r => r.matched)).sum,
       acc.missing + (l.map (fun r => r.missing)).sum,
       acc.mismatched + (l.map (fun r => r.mismatched)).sum,
       acc.checked + (l.map (fun r => r.checked)).sum⟩ := by
    intro l
    induction l with
    | nil => intro acc; simp
    | cons a t ih =>
      intro acc
      rw [List.foldl_cons, ih]
      simp [List.append_assoc]
      omega
  rw [key]
  simp

/-! ### Helper lemmas: the full run -/

theorem loadTable_cols (t : Table) : (loadTable t).cols = t.cols := rfl

theorem process_parallel_blob_error {srcRaw tgtRaw : Table} {pkCol : String}
    {cpu : Option Nat} {mem : ℚ}
    (h : pkCol ∉ srcRaw.cols ∨ pkCol ∉ tgtRaw.cols) :
    process_parallel_blob srcRaw tgtRaw pkCol cpu mem =
      Except.error (keyErrMsg pkCol) := by
  unfold process_parallel_blob
  split
  · rfl
  · rename_i hcond
    exact absurd h hcond

theorem process_parallel_blob_ok_eq {srcRaw tgtRaw : Table} {pkCol : String}
    {cpu : Option Nat} {mem : ℚ} (h1 : pkCol ∈ srcRaw.cols)
    (h2 : pkCol ∈ tgtRaw.cols) :
    process_parallel_blob srcRaw tgtRaw pkCol cpu mem =
      Except.ok
        ⟨(loadTable srcRaw).rows.length, (loadTable tgtRaw).rows.length,
         (aggregate (chunkResults (loadTable srcRaw) (loadTable tgtRaw) pkCol
           ((auto_tune_settings (loadTable srcRaw).rows.length cpu mem).1))).diffs,
         (aggregate (chunkResults (loadTable srcRaw) (loadTable tgtRaw) pkCol
           ((auto_tune_settings (loadTable srcRaw).rows.length cpu mem).1))).matched,
         (aggregate (chunkResults (loadTable srcRaw) (loadTable tgtRaw) pkCol
           ((auto_tune_settings (loadTable srcRaw).rows.length cpu mem).1))).missing,
         (aggregate (chunkResults (loadTable srcRaw) (loadTable tgtRaw) pkCol
           ((auto_tune_settings (loadTable srcRaw).rows.length cpu mem).1))).mismatched,
         (aggregate (chunkResults (loadTable srcRaw) (loadTable tgtRaw) pkCol
           ((auto_tune_settings (loadTable srcRaw).rows.length cpu mem).1))).checked⟩ := by
  unfold process_parallel_blob
  split
  · rename_i hcond
    rw [loadTable_cols, loadTable_cols] at hcond
    rcases hcond with hc | hc
    · exact absurd h1 hc
    · exact absurd h2 hc
  · rfl

theorem process_parallel_blob_ok_inv {srcRaw tgtRaw : Table} {pkCol : String}
    {cpu : Option Nat} {mem : ℚ} {res : RunResult}
    (h : process_parallel_blob srcRaw tgtRaw pkCol cpu mem = Except.ok res) :
    res =
      ⟨(loadTable srcRaw).rows.length, (loadTable tgtRaw).rows.length,
       (aggregate (chunkResults (loadTable srcRaw) (loadTable tgtRaw) pkCol
         ((auto_tune_settings (loadTable srcRaw).rows.length cpu mem).1))).diffs,
       (aggregate (chunkResults (loadTable srcRaw) (loadTable tgtRaw) pkCol
         ((auto_tune_settings (loadTable srcRaw).rows.length cpu mem).1))).matched,
       (aggregate (chunkResults (loadTable srcRaw) (loadTable tgtRaw) pkCol
         ((auto_tune_settings (loadTable srcRaw).rows.length cpu mem).1))).missing,
       (aggregate (chunkResults (loadTable srcRaw) (loadTable tgtRaw) pkCol
         ((auto_tune_settings (loadTable srcRaw).rows.length cpu mem).1))).mismatched,
       (aggregate (chunkResults (loadTable srcRaw) (loadTable tgtRaw) pkCol
         ((auto_tune_settings (loadTable srcRaw).rows.length cpu mem).1))).checked⟩ := by
  by_cases hc : pkCol ∉ srcRaw.cols ∨ pkCol ∉ tgtRaw.cols
  · rw [process_parallel_blob_error hc] at h
    exact absurd h (by simp)
  · push_neg at hc
    rw [process_parallel_blob_ok_eq hc.1 hc.2] at h
    injection h with h
    exact h.symm

theorem sum_checked_of_pointwise {results : List ChunkResult}
    (h : ∀ r ∈ results, r.checked = r.matched + r.missing + r.mismatched) :
    (results.map (fun r => r.checked)).sum =
      (results.map (fun r => r.matched)).sum +
      (results.map (fun r => r.missing)).sum +
      (results.map (fun r => r.mismatched)).sum := by
  rw [List.map_congr_left h]
  rw [show (fun (r : ChunkResult) => r.matched + r.missing + r.mismatched) =
      (fun r => (fun x : ChunkResult => x.matched + x.missing) r +
        (fun x : ChunkResult => x.mismatched) r) from rfl]
  rw [List.sum_map_add]
  rw [show (fun (r : ChunkResult) => r.matched + r.missing) =
      (fun r => (fun x : ChunkResult => x.matched) r +
        (fun x : ChunkResult => x.missing) r) from rfl]
  rw [List.sum_map_add]

theorem sum_diffs_of_pointwise {results : List ChunkResult}
    (h : ∀ r ∈ results, r.diffs.length = r.missing + r.mismatched) :
    ((results.map (fun r => r.diffs)).flatten).length =
      (results.map (fun r => r.missing)).sum +
      (results.map (fun r => r.mismatched)).sum := by
  rw [List.length_flatten, List.map_map]
  rw [show (List.length ∘ fun (r : ChunkResult) => r.diffs) =
      (fun (r : ChunkResult) => r.diffs.length) from rfl]
  rw [List.map_congr_left (fun r hr => h r hr)]
  rw [show (fun (r : ChunkResult) => r.missing + r.mismatched) =
      (fun r => (fun x : ChunkResult => x.missing) r +
        (fun x : ChunkResult => x.mismatched) r) from rfl]
  rw [List.sum_map_add]

theorem chunkResults_pointwise {src tgt : Table} {pkCol : String} {cs : Nat}
    {P : ChunkResult → Prop}
    (h : ∀ (srcRows : List Row),
      P (compare_chunk src.cols srcRows tgt.cols (tgtSubset tgt pkCol srcRows)
        pkCol)) :
    ∀ r ∈ chunkResults src tgt pkCol cs, P r := by
  intro r hr
  unfold chunkResults at hr
  rcases List.mem_map.mp hr with ⟨C, _, hC⟩
  subst hC
  exact h C

/-! ### Helper lemmas: collection order -/

theorem filterMap_get_range {α : Type} (l : List α) :
    (List.range l.length).filterMap (fun i => l.get? i) = l := by
  induction l with
  | nil => rfl
  | cons a t ih =>
    rw [List.length_cons, List.range_succ_eq_map, List.filterMap_cons]
    simp only [List.get?_cons_zero]
    rw [List.filterMap_map]
    have hc : ((fun i => (a :: t).get? i) ∘ Nat.succ) = (fun i => t.get? i) :=
      rfl
    rw [hc, ih]

theorem perm_filterMap_get {α : Type} {l : List α} {order : List Nat}
    (h : order.Perm (List.range l.length)) :
    (order.filterMap (fun i => l.get? i)).Perm l := by
  have h2 := h.filterMap (fun i => l.get? i)
  rw [filterMap_get_range] at h2
  exact h2

theorem aggregate_counts_of_perm {l₁ l₂ : List ChunkResult}
    (h : l₁.Perm l₂) :
    (aggregate l₁).matched = (aggregate l₂).matched ∧
    (aggregate l₁).missing = (aggregate l₂).missing ∧
    (aggregate l₁).mismatched = (aggregate l₂).mismatched ∧
    (aggregate l₁).checked = (aggregate l₂).checked := by
  rw [aggregate_eq, aggregate_eq]
  exact ⟨(h.map _).sum_eq, (h.map _).sum_eq, (h.map _).sum_eq,
    (h.map _).sum_eq⟩

theorem process_parallel_ordered_error {srcRaw tgtRaw : Table}
    {pkCol : String} {cpu : Option Nat} {mem : ℚ} {order : List Nat}
    (h : pkCol ∉ srcRaw.cols ∨ pkCol ∉ tgtRaw.cols) :
    process_parallel_ordered srcRaw tgtRaw pkCol cpu mem order =
      Except.error (keyErrMsg pkCol) := by
  unfold process_parallel_ordered
  split
  · rfl
  · rename_i hcond
    exact absurd h hcond

theorem process_parallel_ordered_ok_eq {srcRaw tgtRaw : Table}
    {pkCol : String} {cpu : Option Nat} {mem : ℚ} {order : List Nat}
    (h1 : pkCol ∈ srcRaw.cols) (h2 : pkCol ∈ tgtRaw.cols) :
    process_parallel_ordered srcRaw tgtRaw pkCol cpu mem order =
      Except.ok
        ⟨(loadTable srcRaw).rows.length, (loadTable tgtRaw).rows.length,
         (aggregate (order.filterMap (fun i =>
           (chunkResults (loadTable srcRaw) (loadTable tgtRaw) pkCol
             ((auto_tune_settings (loadTable srcRaw).rows.length cpu
               mem).1)).get? i))).diffs,
         (aggregate (order.filterMap (fun i =>
           (chunkResults (loadTable srcRaw) (loadTable tgtRaw) pkCol
             ((auto_tune_settings (loadTable srcRaw).rows.length cpu
               mem).1)).get? i))).matched,
         (aggregate (order.filterMap (fun i =>
           (chunkResults (loadTable srcRaw) (loadTable tgtRaw) pkCol
             ((auto_tune_settings (loadTable srcRaw).rows.length cpu
               mem).1)).get? i))).missing,
         (aggregate (order.filterMap (fun i =>
           (chunkResults (loadTable srcRaw) (loadTable tgtRaw) pkCol
             ((auto_tune_settings (loadTable srcRaw).rows.length cpu
               mem).1)).get? i))).mismatched,
         (aggregate (order.filterMap (fun i =>
           (chunkResults (loadTable srcRaw) (loadTable tgtRaw) pkCol
             ((auto_tune_settings (loadTable srcRaw).rows.length cpu
               mem).1)).get? i))).checked⟩ := by
  unfold process_parallel_ordered
  split
  · rename_i hcond
    rw [loadTable_cols, loadTable_cols] at hcond
    rcases hcond with hc | hc
    · exact absurd h1 hc
    · exact absurd h2 hc
  · rfl

/-! ### Helper lemmas: self-comparison -/

theorem loadTable_rows_length (t : Table) :
    (loadTable t).rows.length = t.rows.length := by
  unfold loadTable
  exact List.length_map _ _

theorem loadTable_norm_map (t : Table) (pk : String) :
    (loadTable t).rows.map (fun r => normalize (r pk)) =
      t.rows.map (fun r => normalize (r pk)) := by
  unfold loadTable
  rw [List.map_map]
  apply List.map_congr_left
  intro r _
  exact normalize_loadCell (r pk)

/-- In a self-comparison over pairwise-distinct normalized primary keys,
every source row of every chunk classifies as matched. -/
theorem classifyRow_self_matched {T : Table} {pk : String} {cs : Nat}
    (hnodup : ((loadTable T).rows.map (fun r => normalize (r pk))).Nodup)
    {C : List Row} (hC : C ∈ runChunks (loadTable T).rows cs)
    {r : Row} (hr : r ∈ C) :
    classifyRow (loadTable T).cols pk
      (buildTgtMap (loadTable T).cols pk (tgtSubset (loadTable T) pk C)) r =
      .matchedO := by
  have hrS : r ∈ (loadTable T).rows := mem_of_mem_runChunks hC r hr
  have hrsub : r ∈ tgtSubset (loadTable T) pk C := by
    unfold tgtSubset
    refine List.mem_filter.mpr ⟨hrS, ?_⟩
    exact List.any_eq_true.mpr ⟨r, hr, beq_self_eq_true _⟩
  rcases buildTgtMap_lookup_some (loadTable T).cols
      ⟨r, hrsub, rfl⟩ with ⟨u, husub, huk, hulookup⟩
  have huS : u ∈ (loadTable T).rows := (List.mem_filter.mp husub).1
  have hur : u = r := List.inj_on_of_nodup_map hnodup huS hrS huk
  subst hur
  unfold classifyRow
  dsimp only
  rw [hulookup]
  dsimp only
  rw [if_pos]
  apply List.filterMap_eq_nil_iff.mpr
  intro c hc
  by_cases hcp : c = pk
  · rw [if_pos hcp]
  · rw [if_neg hcp, pyGet_mkNormRow_of_mem hc]
    rw [if_neg]
    simp

/-! ### Claim theorems -/

/-- C3: for every chunk comparison, `checked = matched + missing + mismatched`
in the resulting chunk result, and the same equation holds for the aggregated
totals of every successful run. -/
theorem C3_checked_partitions :
    (∀ (srcCols : List String) (srcRows : List Row) (tgtCols : List String)
        (tgtRows : List Row) (pkCol : String),
      (compare_chunk srcCols srcRows tgtCols tgtRows pkCol).checked =
        (compare_chunk srcCols srcRows tgtCols tgtRows pkCol).matched +
        (compare_chunk srcCols srcRows tgtCols tgtRows pkCol).missing +
        (compare_chunk srcCols srcRows tgtCols tgtRows pkCol).mismatched) ∧
    (∀ (srcRaw tgtRaw : Table) (pkCol : String) (cpu : Option Nat) (mem : ℚ)
        (res : RunResult),
      process_parallel_blob srcRaw tgtRaw pkCol cpu mem = Except.ok res →
      res.checked = res.matched + res.missing + res.mismatched) := by
  constructor
  · exact compare_chunk_checked_eq
  · intro srcRaw tgtRaw pkCol cpu mem res h
    rw [process_parallel_blob_ok_inv h]
    rw [aggregate_eq]
    exact sum_checked_of_pointwise (chunkResults_pointwise (fun srcRows =>
      compare_chunk_checked_eq _ _ _ _ _))

/-- Witness for C3 on a concrete run: comparing `exSimple` against itself. -/
theorem C3_checked_partitions_witness :
    exSimpleRun.checked =
      exSimpleRun.matched + exSimpleRun.missing + exSimpleRun.mismatched :=
  C3_checked_partitions.2 exSimple exSimple "pk" (some 4) 8 exSimpleRun rfl

/-- C4 counterexample: a primary key absent from the target table and a
primary key absent from the source table produce the *same* error value, so
the error does not name which table lacks the column (the claim says it
does). -/
theorem C4_counterexample :
    process_parallel_blob exSimple exNoPk "pk" (some 4) 8 =
      Except.error (keyErrMsg "pk") ∧
    process_parallel_blob exNoPk exSimple "pk" (some 4) 8 =
      Except.error (keyErrMsg "pk") :=
  ⟨rfl, rfl⟩

/-- C4 (amended): if the primary-key column is absent from the source table,
the target table, or both, the run fails with a `KeyError` whose message names
the column — but not which table(s) lack it — and no comparison result (no
counters) is produced. -/
theorem C4_missing_key_fails (srcRaw tgtRaw : Table) (pkCol : String)
    (cpu : Option Nat) (mem : ℚ)
    (h : pkCol ∉ srcRaw.cols ∨ pkCol ∉ tgtRaw.cols) :
    process_parallel_blob srcRaw tgtRaw pkCol cpu mem =
      Except.error
        ("Primary key \x27" ++ pkCol ++ "\x27 not found in one of the files") :=
  process_parallel_blob_error h

/-- Witness for C4 at a concrete input. -/
theorem C4_missing_key_fails_witness :
    ("pk" ∉ exNoPk.cols ∨ "pk" ∉ exSimple.cols) ∧
    process_parallel_blob exNoPk exSimple "pk" (some 4) 8 =
      Except.error
        ("Primary key \x27" ++ "pk" ++ "\x27 not found in one of the files") :=
  ⟨Or.inl (by decide),
   C4_missing_key_fails exNoPk exSimple "pk" (some 4) 8 (Or.inl (by decide))⟩

/-- C5: for every source row list and every `chunk_size ≥ 1`, the chunks are
an exact partition — concatenating them in chunk order reproduces the rows
with nothing duplicated or dropped — and every chunk has at most `chunk_size`
rows. -/
theorem C5_partition_exact {α : Type} (rows : List α) (cs : Nat)
    (hcs : 1 ≤ cs) :
    (runChunks rows cs).flatten = rows ∧
      ∀ C ∈ runChunks rows cs, C.length ≤ cs :=
  ⟨runChunks_flatten hcs rows, fun _ hC => runChunks_chunk_length_le hC⟩

/-- Witness for C5 at a concrete input. -/
theorem C5_partition_exact_witness :
    1 ≤ 2 ∧ (runChunks [10, 20, 30, 40, 50] 2).flatten = [10, 20, 30, 40, 50] :=
  ⟨by norm_num, (C5_partition_exact [10, 20, 30, 40, 50] 2 (by norm_num)).1⟩

/-- C7: `auto_tune_settings` implements the specification threshold table
(`adviseSpec`) exactly, for every row count, every positive reported core
count and every available-memory amount. -/
theorem C7_auto_tune_matches_spec (total cores : Nat) (mem : ℚ)
    (hc : 1 ≤ cores) :
    auto_tune_settings total (some cores) mem = adviseSpec total cores mem := by
  cases cores with
  | zero => omega
  | succ n => rfl

/-- Witness for C7 at a concrete input. -/
theorem C7_auto_tune_matches_spec_witness :
    1 ≤ 4 ∧ auto_tune_settings 500000 (some 4) 8 = adviseSpec 500000 4 8 :=
  ⟨by norm_num, C7_auto_tune_matches_spec 500000 4 8 (by norm_num)⟩

/-- C8: normalization is idempotent — re-normalizing the (string) output of
`normalize` returns it unchanged, for every input value. -/
theorem C8_normalize_idempotent (v : Value) :
    normalize (.vstr (normalize v)) = normalize v := by
  cases v with
  | vna => rfl
  | vint i => exact normStr_idem _
  | vnum s => exact normStr_idem _
  | vstr s => exact normStr_idem _

/-- C9: in every chunk result the diff-list length equals
`missing + mismatched`, and the same holds for the aggregated diff list and
counters of every successful run. -/
theorem C9_diffs_length :
    (∀ (srcCols : List String) (srcRows : List Row) (tgtCols : List String)
        (tgtRows : List Row) (pkCol : String),
      (compare_chunk srcCols srcRows tgtCols tgtRows pkCol).diffs.length =
        (compare_chunk srcCols srcRows tgtCols tgtRows pkCol).missing +
        (compare_chunk srcCols srcRows tgtCols tgtRows pkCol).mismatched) ∧
    (∀ (srcRaw tgtRaw : Table) (pkCol : String) (cpu : Option Nat) (mem : ℚ)
        (res : RunResult),
      process_parallel_blob srcRaw tgtRaw pkCol cpu mem = Except.ok res →
      res.diffs.length = res.missing + res.mismatched) := by
  constructor
  · exact compare_chunk_diffs_len
  · intro srcRaw tgtRaw pkCol cpu mem res h
    rw [process_parallel_blob_ok_inv h]
    rw [aggregate_eq]
    exact sum_diffs_of_pointwise (chunkResults_pointwise (fun srcRows =>
      compare_chunk_diffs_len _ _ _ _ _))

/-- Witness for C9 on a concrete run: comparing `exDupT` against itself,
which produces one mismatch diff. -/
theorem C9_diffs_length_witness :
    exDupRun.diffs.length = exDupRun.missing + exDupRun.mismatched :=
  C9_diffs_length.2 exDupT exDupT "pk" (some 4) 8 exDupRun rfl

/-- C6: the aggregated matched, missing, mismatched and checked counts do not
depend on the order in which chunk results are collected: collecting the chunk
results in any completion order (any permutation of the submission order)
yields the same four counters as the submission-order run.  The worker count
never enters the computation of any chunk result — in the source the pool size
only determines which completion order `as_completed` materializes — so the
counts are identical for every worker count and every completion order. -/
theorem C6_counts_order_independent (srcRaw tgtRaw : Table) (pkCol : String)
    (cpu : Option Nat) (mem : ℚ) (order : List Nat)
    (hperm : order.Perm (List.range (chunkResults (loadTable srcRaw)
      (loadTable tgtRaw) pkCol
      ((auto_tune_settings (loadTable srcRaw).rows.length cpu
        mem).1)).length)) :
    Except.map countsQuad
        (process_parallel_ordered srcRaw tgtRaw pkCol cpu mem order) =
      Except.map countsQuad (process_parallel_blob srcRaw tgtRaw pkCol cpu mem) := by
  by_cases hc : pkCol ∉ srcRaw.cols ∨ pkCol ∉ tgtRaw.cols
  · rw [process_parallel_blob_error hc, process_parallel_ordered_error hc]
  · push_neg at hc
    rw [process_parallel_blob_ok_eq hc.1 hc.2,
      process_parallel_ordered_ok_eq hc.1 hc.2]
    rcases aggregate_counts_of_perm (perm_filterMap_get hperm) with
      ⟨h1, h2, h3, h4⟩
    simp only [Except.map, countsQuad]
    rw [h1, h2, h3, h4]

/-- Witness for C6 at a concrete input and a concrete completion order. -/
theorem C6_counts_order_independent_witness :
    [0].Perm (List.range (chunkResults (loadTable exSimple)
      (loadTable exSimple) "pk"
      ((auto_tune_settings (loadTable exSimple).rows.length (some 4)
        8).1)).length) ∧
    Except.map countsQuad
        (process_parallel_ordered exSimple exSimple "pk" (some 4) 8 [0]) =
      Except.map countsQuad (process_parallel_blob exSimple exSimple "pk"
        (some 4) 8) :=
  ⟨by decide,
   C6_counts_order_independent exSimple exSimple "pk" (some 4) 8 [0]
     (by decide)⟩

/-- C1 counterexample: `exDupT` carries the primary-key column, yet its
self-comparison reports `mismatched = 1` and `matched = 1`, not
`mismatched = 0` and `matched = len(T) = 2` — the first duplicate-key row is
compared against the second one, which overwrote its `tgt_map` slot. -/
theorem C1_counterexample :
    "pk" ∈ exDupT.cols ∧ exDupT.rows.length = 2 ∧
    process_parallel_blob exDupT exDupT "pk" (some 4) 8 =
      Except.ok exDupRun ∧
    exDupRun.mismatched = 1 ∧ exDupRun.matched = 1 :=
  ⟨by decide, rfl, rfl, rfl, rfl⟩

/-- C1 (amended): for every table whose rows have pairwise-distinct
normalized primary-key values and every primary-key column present in it,
comparing the table against itself yields `missing = 0`, `mismatched = 0` and
`matched = len(table)` (and an empty diff list), for every tuning
environment. -/
theorem C1_self_compare_matches (T : Table) (pk : String) (cpu : Option Nat)
    (mem : ℚ) (hpk : pk ∈ T.cols)
    (hnodup : (T.rows.map (fun r => normalize (r pk))).Nodup) :
    process_parallel_blob T T pk cpu mem =
      Except.ok ⟨T.rows.length, T.rows.length, [], T.rows.length, 0, 0,
        T.rows.length⟩ := by
  have hnodup2 : ((loadTable T).rows.map (fun r => normalize (r pk))).Nodup := by
    rw [loadTable_norm_map]
    exact hnodup
  rw [process_parallel_blob_ok_eq hpk hpk]
  have hcs1 : 1 ≤ (auto_tune_settings (loadTable T).rows.length cpu mem).1 :=
    auto_tune_chunkSize_pos _ _ _
  have hchunks : chunkResults (loadTable T) (loadTable T) pk
      ((auto_tune_settings (loadTable T).rows.length cpu mem).1) =
      (runChunks (loadTable T).rows
        ((auto_tune_settings (loadTable T).rows.length cpu mem).1)).map
        (fun C => ⟨[], C.length, 0, 0, C.length⟩) := by
    unfold chunkResults
    apply List.map_congr_left
    intro C hC
    exact compare_chunk_all_matched
      (fun r hr => classifyRow_self_matched hnodup2 hC hr)
  rw [hchunks, aggregate_eq]
  rw [List.map_map, List.map_map, List.map_map, List.map_map, List.map_map]
  have hdiffs : ((runChunks (loadTable T).rows
      ((auto_tune_settings (loadTable T).rows.length cpu mem).1)).map
      ((fun (r : ChunkResult) => r.diffs) ∘
        (fun C => (⟨[], C.length, 0, 0, C.length⟩ : ChunkResult)))).flatten =
      ([] : List DiffRecord) := by
    apply List.flatten_eq_nil_iff.mpr
    intro l hl
    rcases List.mem_map.mp hl with ⟨C, _, hCl⟩
    exact hCl.symm
  have hlen : ((runChunks (loadTable T).rows
      ((auto_tune_settings (loadTable T).rows.length cpu mem).1)).map
      ((fun (r : ChunkResult) => r.matched) ∘
        (fun C => (⟨[], C.length, 0, 0, C.length⟩ : ChunkResult)))).sum =
      T.rows.length := by
    have h1 : ((fun (r : ChunkResult) => r.matched) ∘
        (fun (C : List Row) => (⟨[], C.length, 0, 0, C.length⟩ : ChunkResult))) =
        List.length := rfl
    rw [h1, ← List.length_flatten, runChunks_flatten hcs1,
      loadTable_rows_length]
  have hzero : ∀ f : ChunkResult → Nat, (∀ C : List Row,
      f ⟨[], C.length, 0, 0, C.length⟩ = 0) →
      ((runChunks (loadTable T).rows
        ((auto_tune_settings (loadTable T).rows.length cpu mem).1)).map
        ((fun (r : ChunkResult) => f r) ∘
          (fun C => (⟨[], C.length, 0, 0, C.length⟩ : ChunkResult)))).sum = 0 := by
    intro f hf
    have h1 : ((fun (r : ChunkResult) => f r) ∘
        (fun (C : List Row) => (⟨[], C.length, 0, 0, C.length⟩ : ChunkResult))) =
        (fun (C : List Row) =>
          f ⟨[], C.length, 0, 0, C.length⟩) := rfl
    rw [h1]
    rw [List.map_congr_left (fun C _ => hf C)]
    simp
  have hchecked : ((runChunks (loadTable T).rows
      ((auto_tune_settings (loadTable T).rows.length cpu mem).1)).map
      ((fun (r : ChunkResult) => r.checked) ∘
        (fun C => (⟨[], C.length, 0, 0, C.length⟩ : ChunkResult)))).sum =
      T.rows.length := by
    have h1 : ((fun (r : ChunkResult) => r.checked) ∘
        (fun (C : List Row) => (⟨[], C.length, 0, 0, C.length⟩ : ChunkResult))) =
        List.length := rfl
    rw [h1, ← List.length_flatten, runChunks_flatten hcs1,
      loadTable_rows_length]
  rw [hdiffs, hlen, hchecked, hzero (fun r => r.missing) (fun C => rfl),
    hzero (fun r => r.mismatched) (fun C => rfl), loadTable_rows_length]

/-- Witness for C1 (amended) at a concrete input. -/
theorem C1_self_compare_matches_witness :
    ("pk" ∈ exOkT.cols ∧
      (exOkT.rows.map (fun r => normalize (r "pk"))).Nodup) ∧
    process_parallel_blob exOkT exOkT "pk" (some 4) 8 =
      Except.ok ⟨exOkT.rows.length, exOkT.rows.length, [], exOkT.rows.length,
        0, 0, exOkT.rows.length⟩ :=
  ⟨⟨by decide, by decide⟩,
   C1_self_compare_matches exOkT "pk" (some 4) 8 (by decide) (by decide)⟩

/-- C2 counterexample: every cell of the single source row of `exNbspSrc`
equals the corresponding cell of the target row of `exNbspTgt` after
normalization (the primary keys differ only by an embedded non-breaking
space), yet the full comparison reports the row as missing, not matched: the
target-subset pre-filter tests raw values, so the target row is dropped
before `compare_chunk` ever sees it. -/
theorem C2_counterexample :
    normalize (rowPkA ['a', '\xa0', 'b'] ['X'] "pk") =
      normalize (rowPkA ['a', 'b'] ['X'] "pk") ∧
    normalize (rowPkA ['a', '\xa0', 'b'] ['X'] "a") =
      normalize (rowPkA ['a', 'b'] ['X'] "a") ∧
    process_parallel_blob exNbspSrc exNbspTgt "pk" (some 4) 8 =
      Except.ok exNbspRun ∧
    exNbspRun.missing = 1 ∧ exNbspRun.matched = 0 ∧
    exNbspRun.mismatched = 0 :=
  ⟨by decide, by decide, rfl, rfl, rfl, rfl⟩

/-- C2 (amended): (1) a source row of any chunk of the run is reported
matched provided some target row agrees with it on the *raw* primary-key
value (so the raw-value pre-filter keeps at least one carrier of its key) and
every target row carrying its normalized primary key agrees with it, on every
non-key source column, after normalization; (2) the outcome computed for a
source row depends only on the normalized values of its cells; (3) the stored
target row used for comparisons holds only normalized values, so the outcome
depends only on the normalized values of the target cells.  Together: cell
equality is decided on normalized values, and a cosmetic difference alone
never produces a mismatch — but (counterexample above) a cosmetic difference
on the primary key can still produce a missing report via the raw-value
pre-filter. -/
theorem C2_normalized_equality_decides :
    (∀ (srcRaw tgtRaw : Table) (pk : String) (cpu : Option Nat) (mem : ℚ)
        (C : List Row),
      C ∈ runChunks (loadTable srcRaw).rows
        ((auto_tune_settings (loadTable srcRaw).rows.length cpu mem).1) →
      ∀ r ∈ C,
      (∃ t ∈ (loadTable tgtRaw).rows, t pk = r pk) →
      (∀ u ∈ (loadTable tgtRaw).rows,
        normalize (u pk) = normalize (r pk) →
        ∀ c ∈ (loadTable srcRaw).cols, c ≠ pk →
          normalize (r c) = pyGet (mkNormRow (loadTable tgtRaw).cols u) c []) →
      classifyRow (loadTable srcRaw).cols pk
        (buildTgtMap (loadTable tgtRaw).cols pk
          (tgtSubset (loadTable tgtRaw) pk C)) r = .matchedO) ∧
    (∀ (srcCols : List String) (pk : String)
        (tgtMap : List (List Char × List (String × List Char))) (r1 r2 : Row),
      (∀ c, normalize (r1 c) = normalize (r2 c)) →
      classifyRow srcCols pk tgtMap r1 = classifyRow srcCols pk tgtMap r2) ∧
    (∀ (cols : List String) (t1 t2 : Row),
      (∀ c, normalize (t1 c) = normalize (t2 c)) →
      mkNormRow cols t1 = mkNormRow cols t2) := by
  refine ⟨?_, ?_, ?_⟩
  · intro srcRaw tgtRaw pk cpu mem C hC r hr hraw hnorm
    rcases hraw with ⟨t, htmem, htpk⟩
    have htsub : t ∈ tgtSubset (loadTable tgtRaw) pk C := by
      unfold tgtSubset
      refine List.mem_filter.mpr ⟨htmem, ?_⟩
      exact List.any_eq_true.mpr ⟨r, hr, beq_iff_eq.mpr htpk⟩
    rcases buildTgtMap_lookup_some (loadTable tgtRaw).cols
        ⟨t, htsub, congrArg normalize htpk⟩ with ⟨u, husub, huk, hulookup⟩
    have huT : u ∈ (loadTable tgtRaw).rows := (List.mem_filter.mp husub).1
    unfold classifyRow
    dsimp only
    rw [hulookup]
    dsimp only
    rw [if_pos]
    apply List.filterMap_eq_nil_iff.mpr
    intro c hc
    by_cases hcp : c = pk
    · rw [if_pos hcp]
    · rw [if_neg hcp, ← hnorm u huT huk c hc hcp]
      rw [if_neg]
      simp
  · intro srcCols pk tgtMap r1 r2 h
    unfold classifyRow
    dsimp only
    rw [h pk]
    cases (tgtMap.lookup (normalize (r2 pk))) with
    | none => rfl
    | some tgtRow =>
      dsimp only
      have hd : rowDiffs srcCols pk r1 tgtRow = rowDiffs srcCols pk r2 tgtRow := by
        unfold rowDiffs
        apply List.filterMap_congr
        intro c _
        rw [h c]
      rw [hd]
  · intro cols t1 t2 h
    rw [mkNormRow_eq, mkNormRow_eq]
    congr 1
    apply List.map_congr_left
    intro c _
    rw [h c]

/-- Witness for C2 (amended) at a concrete input: a source row that
raw-matches its target row is classified as matched by the chunk the run
assigns it to. -/
theorem C2_normalized_equality_decides_witness :
    (loadRow (rowPkA ['1'] ['X']) "pk" = loadRow (rowPkA ['1'] ['X']) "pk") ∧
    classifyRow (loadTable exSimple).cols "pk"
      (buildTgtMap (loadTable exSimple).cols "pk"
        (tgtSubset (loadTable exSimple) "pk" (loadTable exSimple).rows))
      (loadRow (rowPkA ['1'] ['X'])) = .matchedO := by
  constructor
  · rfl
  · refine C2_normalized_equality_decides.1 exSimple exSimple "pk" (some 4) 8
      (loadTable exSimple).rows ?_ (loadRow (rowPkA ['1'] ['X'])) ?_ ?_ ?_
    · exact List.mem_singleton.mpr rfl
    · exact List.mem_cons_self _ _
    · exact ⟨loadRow (rowPkA ['1'] ['X']), List.mem_cons_self _ _, rfl⟩
    · intro u hu huk c hc hcp
      have hu1 : u = loadRow (rowPkA ['1'] ['X']) := List.mem_singleton.mp hu
      subst hu1
      have hc2 : c ∈ ["pk", "a"] := hc
      have hc1 : c = "pk" ∨ c = "a" := by simpa using hc2
      rcases hc1 with hc1 | hc1
      · exact absurd hc1 hcp
      · subst hc1
        decide

/-- C10: when every raw cell is a missing value or a string — which is what
`read_csv(..., dtype=str)` produces — the load-time preprocessing of
`read_blob_to_df` turns every cell into a string with no leading or trailing
whitespace: missing cells become the empty string and string cells are
stripped.  `process_parallel_blob` applies `loadTable` to both inputs before
the raw-value target-subset membership test, so every cell entering that test
is such a stripped string. -/
theorem C10_load_strips_cells :
    ∀ (t : Table),
      (∀ r ∈ t.rows, ∀ c, r c = Value.vna ∨ ∃ s, r c = Value.vstr s) →
      ∀ r ∈ (loadTable t).rows, ∀ c,
        ∃ s, r c = Value.vstr s ∧ pyStrip s = s := by
  intro t h r hr c
  unfold loadTable at hr
  rcases List.mem_map.mp hr with ⟨r0, hr0, hrr⟩
  subst hrr
  rcases h r0 hr0 c with hna | ⟨s, hs⟩
  · refine ⟨pyStrip [], ?_, pyStrip_idem []⟩
    show loadCell (r0 c) = _
    rw [hna]
    rfl
  · refine ⟨pyStrip s, ?_, pyStrip_idem s⟩
    show loadCell (r0 c) = _
    rw [hs]
    rfl

/-- Witness for C10 at a concrete input: the leading space of the `exSpacedT`
primary-key cell is gone after loading, leaving a stripped string. -/
theorem C10_load_strips_cells_witness :
    loadRow (rowPkA [' ', '1'] ['X']) "pk" = Value.vstr ['1'] ∧
    pyStrip ['1'] = ['1'] := by
  obtain ⟨s, hs, hstrip⟩ :=
    C10_load_strips_cells exSpacedT
      (by
        intro r hrr c
        have hr1 : r = rowPkA [' ', '1'] ['X'] := List.mem_singleton.mp hrr
        subst hr1
        unfold rowPkA
        by_cases h1 : c = "pk"
        · rw [if_pos h1]
          exact Or.inr ⟨_, rfl⟩
        · rw [if_neg h1]
          by_cases h2 : c = "a"
          · rw [if_pos h2]
            exact Or.inr ⟨_, rfl⟩
          · rw [if_neg h2]
            exact Or.inl rfl)
      (loadRow (rowPkA [' ', '1'] ['X'])) (List.mem_cons_self _ _) "pk"
  have h2 : loadRow (rowPkA [' ', '1'] ['X']) "pk" = Value.vstr ['1'] := by
    decide
  have hs1 : s = ['1'] := Value.vstr.inj (hs.symm.trans h2)
  subst hs1
  exact ⟨h2, hstrip⟩

end CompareFn
